import Mathlib

/-!
Shallow embedding of the chess-puzzle-tutor core (src/main.py).

The core consumes an external "chess rules" capability (python-chess):
legal-move enumeration, make/unmake, terminal detection, outcome with
winner, piece lookup, notation.  A position, as observed through that
capability within one request, is a finitely branching, finite game tree
(python-chess games always terminate: the seventyfive-move and fivefold
repetition rules are detected automatically by `is_game_over`).  We model
a position as such a tree: each node carries the data the core reads off
the rules capability (outcome, side to move, piece list, piece lookup,
notation and move predicates), and its list of legal moves paired with
the position each move leads to (`board.push(move)`).

Scores: `evaluate_board` returns a Python int; `minimax` and
`find_best_move` mix those ints with `float('inf')` / `-float('inf')`.
We model scores as `WithBot (WithTop ℤ)`: `⊥` is `-inf`, `⊤` is `+inf`.
-/

inductive PieceKind : Type where
  | pawn | knight | bishop | rook | queen | king
deriving DecidableEq

structure Piece : Type where
  kind : PieceKind
  color : Bool
deriving DecidableEq

/-- A move as the rules capability hands it to the core: origin square,
destination square (0..63), and the capability's engine encoding
(`move.uci()`).  The core never constructs moves, only selects among
enumerated ones. -/
structure Move : Type where
  fromSq : Nat
  toSq : Nat
  uci : String
deriving DecidableEq

/-- The observations the core reads off one position through the rules
capability: `outcome` is `board.outcome()` (`none` while the game is not
over, otherwise `some winner` with `winner : Option Bool`, `some true` a
White win, `some false` a Black win, `none` a draw); `turn` the side to
move; `pieces` the values of `board.piece_map()`; `pieceAt` is
`board.piece_at`; `sanOf` is `board.san`; `isCapture` is
`board.is_capture`; `givesCheck` is `board.gives_check`. -/
structure PosData : Type where
  outcome : Option (Option Bool)
  turn : Bool
  pieces : List Piece
  pieceAt : Nat → Option Piece
  sanOf : Move → String
  isCapture : Move → Bool
  givesCheck : Move → Bool

mutual
/-- A position of the rules capability, observed as a finite game tree. -/
inductive Position : Type where
  | mk : PosData → Children → Position

/-- The legal moves of a position (`board.legal_moves`, in enumeration
order), each paired with the position `board.push(move)` reaches. -/
inductive Children : Type where
  | nil : Children
  | cons : Move → Position → Children → Children
end

def Position.data : Position → PosData
  | .mk d _ => d

def Position.children : Position → Children
  | .mk _ cs => cs

def Position.outcome (p : Position) : Option (Option Bool) := p.data.outcome

/-- Model of `board.is_game_over()`: python-chess returns `true` exactly
when `board.outcome()` is not `None`. -/
def Position.isGameOver (p : Position) : Bool := p.outcome.isSome

def Position.pieces (p : Position) : List Piece := p.data.pieces

def Position.pieceAt (p : Position) (sq : Nat) : Option Piece := p.data.pieceAt sq

def Position.sanOf (p : Position) (m : Move) : String := p.data.sanOf m

def Position.isCapture (p : Position) (m : Move) : Bool := p.data.isCapture m

def Position.givesCheck (p : Position) (m : Move) : Bool := p.data.givesCheck m

/-- Model of `board.result()` for a constructed board (python-chess
returns the score string of the outcome, `*` while the game is
unfinished). -/
def Position.result (p : Position) : String :=
  match p.outcome with
  | some (some true) => "1-0"
  | some (some false) => "0-1"
  | some none => "1/2-1/2"
  | none => "*"

def Children.isNil : Children → Bool
  | .nil => true
  | .cons _ _ _ => false

def Children.toList : Children → List (Move × Position)
  | .nil => []
  | .cons m q rest => (m, q) :: toList rest

def Children.find? : Children → Move → Option Position
  | .nil, _ => none
  | .cons m q rest, mv => if m = mv then some q else find? rest mv

/-- Model of `board.push(move)` for a legal move: the child position the
move leads to (`none` if the move is not among the legal moves). -/
def Position.push? (p : Position) (m : Move) : Option Position := p.children.find? m

/-- Extended score type: `float` scores as the search uses them.  `⊥` is
`-float('inf')`, `⊤` is `float('inf')`, and embedded integers are the
values `evaluate_board` produces. -/
abbrev XScore := WithBot (WithTop ℤ)

abbrev nInf : XScore := ⊥

abbrev pInf : XScore := ⊤

abbrev intv (z : ℤ) : XScore := ((z : WithTop ℤ) : XScore)

/-- Fail-soft bounds relation (Knuth-Moore) used to settle the pruning
equivalence: the pruned score `v` relates to the exhaustive score `t`
within the window `(a, b)` — a fail-low `v` upper-bounds `t`, a
fail-high `v` lower-bounds `t`, and an in-window `v` equals `t`. -/
def FS (v t a b : XScore) : Prop :=
  (v ≤ a → t ≤ v) ∧ (b ≤ v → v ≤ t) ∧ (a < v → v < b → v = t)

/-- The fixed piece-value table of src/main.py line 59
(`piece_values = {chess.PAWN: 1, ..., chess.KING: 0}`; the `.get`
default 0 is unreachable since the table covers every kind). -/
def piece_values : PieceKind → ℤ
  | .pawn => 1
  | .knight => 3
  | .bishop => 3
  | .rook => 5
  | .queen => 9
  | .king => 0

/-- Model of `evaluate_board` (src/main.py lines 61-66). -/
def evaluate_board (p : Position) : ℤ :=
  if p.isGameOver then
    if p.result = "1-0" then 10000 else if p.result = "0-1" then -10000 else 0
  else
    (p.pieces.map (fun pc => piece_values pc.kind * (if pc.color = true then 1 else -1))).sum

mutual
/-- Model of `minimax` (src/main.py lines 68-90): depth-bounded
alpha-beta search.  The Python `for move in board.legal_moves` loops with
`break` on `beta <= alpha` become `maxLoop` / `minLoop`. -/
def minimax : Position → ℤ → XScore → XScore → Bool → XScore
  | .mk d cs, depth, alpha, beta, maximizing =>
    if depth = 0 ∨ (Position.mk d cs).isGameOver then
      intv (evaluate_board (.mk d cs))
    else if maximizing then
      maxLoop cs depth alpha beta nInf
    else
      minLoop cs depth alpha beta pInf
termination_by structural p _ _ _ _ => p

/-- The maximizing loop body of `minimax` (lines 72-80): `maxEval` is the
running `max_eval`, updated together with `alpha`; on `beta <= alpha` the
loop breaks and returns the running maximum. -/
def maxLoop : Children → ℤ → XScore → XScore → XScore → XScore
  | .nil, _, _, _, maxEval => maxEval
  | .cons _ q rest, depth, alpha, beta, maxEval =>
    let e := minimax q (depth - 1) alpha beta false
    let maxEval2 := max maxEval e
    let alpha2 := max alpha e
    if beta ≤ alpha2 then maxEval2 else maxLoop rest depth alpha2 beta maxEval2
termination_by structural cs _ _ _ _ => cs

/-- The minimizing loop body of `minimax` (lines 82-90). -/
def minLoop : Children → ℤ → XScore → XScore → XScore → XScore
  | .nil, _, _, _, minEval => minEval
  | .cons _ q rest, depth, alpha, beta, minEval =>
    let e := minimax q (depth - 1) alpha beta true
    let minEval2 := min minEval e
    let beta2 := min beta e
    if beta2 ≤ alpha then minEval2 else minLoop rest depth alpha beta2 minEval2
termination_by structural cs _ _ _ _ => cs
end

/-- The score `find_best_move` assigns to one root move (src/main.py
line 97): one ply of make, then `minimax(depth-1, -inf, +inf, False)`. -/
def rootValue (depth : ℤ) (mq : Move × Position) : XScore :=
  minimax mq.2 (depth - 1) nInf pInf false

/-- The root loop of `find_best_move` (lines 95-101): running
`best_move` / `best_value`, updated when `value > best_value`. -/
def fbmLoop : Children → ℤ → Option Move → XScore → Option Move
  | .nil, _, bestMove, _ => bestMove
  | .cons m q rest, depth, bestMove, bestValue =>
    let value := minimax q (depth - 1) nInf pInf false
    if bestValue < value then fbmLoop rest depth (some m) value
    else fbmLoop rest depth bestMove bestValue
termination_by structural cs _ _ _ => cs

/-- Model of `find_best_move` (src/main.py lines 92-102).  `best_move`
starts as `None` and is returned unchanged when no move improves on
`-float('inf')`; the Python default `depth=4` is passed explicitly. -/
def find_best_move (p : Position) (depth : ℤ) : Option Move :=
  fbmLoop p.children depth none nInf

mutual
/-- Modelled from the spec's words for the refinement claim: exhaustive
(unpruned) minimax at the same depth — identical base case and child
enumeration, but every child is scored and no alpha-beta cutoff exists. -/
def minimaxNP : Position → ℤ → Bool → XScore
  | .mk d cs, depth, maximizing =>
    if depth = 0 ∨ (Position.mk d cs).isGameOver then
      intv (evaluate_board (.mk d cs))
    else if maximizing then npMaxL cs depth else npMinL cs depth
termination_by structural p _ _ => p

/-- Maximum of the exhaustive child scores (spec-side definition). -/
def npMaxL : Children → ℤ → XScore
  | .nil, _ => nInf
  | .cons _ q rest, depth => max (minimaxNP q (depth - 1) false) (npMaxL rest depth)
termination_by structural cs _ => cs

/-- Minimum of the exhaustive child scores (spec-side definition). -/
def npMinL : Children → ℤ → XScore
  | .nil, _ => pInf
  | .cons _ q rest, depth => min (minimaxNP q (depth - 1) true) (npMinL rest depth)
termination_by structural cs _ => cs
end

/-- Root loop of the exhaustive-search variant of `find_best_move`
(spec-side definition for the refinement claim). -/
def fbmLoopNP : Children → ℤ → Option Move → XScore → Option Move
  | .nil, _, bestMove, _ => bestMove
  | .cons m q rest, depth, bestMove, bestValue =>
    let value := minimaxNP q (depth - 1) false
    if bestValue < value then fbmLoopNP rest depth (some m) value
    else fbmLoopNP rest depth bestMove bestValue
termination_by structural cs _ _ _ => cs

/-- Root move selection over exhaustive minimax (spec-side definition
for the refinement claim). -/
def find_best_moveNP (p : Position) (depth : ℤ) : Option Move :=
  fbmLoopNP p.children depth none nInf

/-- Model of python-chess `piece.symbol()`: the piece letter, uppercase
for White, lowercase for Black. -/
def pieceLetter : PieceKind → String
  | .pawn => "p"
  | .knight => "n"
  | .bishop => "b"
  | .rook => "r"
  | .queen => "q"
  | .king => "k"

/-- Uppercase piece letters. -/
def pieceLetterUpper : PieceKind → String
  | .pawn => "P"
  | .knight => "N"
  | .bishop => "B"
  | .rook => "R"
  | .queen => "Q"
  | .king => "K"

/-- Model of `piece.symbol().lower()`: the symbol is the piece letter in
the color's case, so lowering it yields the lowercase letter. -/
def Piece.symbolLower (pc : Piece) : String := pieceLetter pc.kind

/-- Model of `piece.symbol().upper()`. -/
def Piece.symbolUpper (pc : Piece) : String := pieceLetterUpper pc.kind

/-- Model of `chess.square_name`: file letter then rank digit. -/
def squareName (sq : Nat) : String :=
  (["a", "b", "c", "d", "e", "f", "g", "h"].getD (sq % 8) "?") ++
    (["1", "2", "3", "4", "5", "6", "7", "8"].getD (sq / 8) "?")

/-- Model of `generate_hint` (src/main.py lines 104-117).  Returns
`none` exactly where the Python code would raise: tiers 1-2 dereference
`board.piece_at(best_move.from_square)` and tier 3 pushes the move (a
legal move yields a child position).  The tier-3 outcome tag follows
Python truthiness of `outcome and outcome.winner`: only a not-`None`
outcome whose winner is White (`chess.WHITE = True`) is truthy. -/
def generate_hint (p : Position) (best_move : Move) (level : ℤ) : Option String :=
  let piece := p.pieceAt best_move.fromSq
  let from_sq := squareName best_move.fromSq
  let to_sq := squareName best_move.toSq
  if level = 1 then
    piece.map (fun pc => "Try moving your " ++ pc.symbolLower ++ " from " ++ from_sq ++ ".")
  else if level = 2 then
    piece.map (fun pc =>
      pc.symbolUpper ++ from_sq ++ " to " ++ to_sq ++ " â€“ " ++
        (if p.isCapture best_move then "captures!"
         else if p.givesCheck best_move then "checks!" else "good move"))
  else
    let san := p.sanOf best_move
    (p.push? best_move).map (fun q =>
      "Solution: " ++ san ++ " (" ++ best_move.uci ++ "). " ++
        (match q.outcome with
         | some (some true) => "Mate!"
         | _ => "Winning line!"))

/-!
Stateful embedding.  In the Python code the board is one mutable
resource: `board.push(move)` descends to the child and records the
parent on the board's move stack, `board.pop()` restores it.  To settle
the side-effect-discipline claim we re-embed the three operations as
explicit state passing over `(current position, undo stack)` and prove
the state is restored on every exit path.
-/

def popS : Position × List Position → Position × List Position
  | (q, []) => (q, [])
  | (_, p :: rest) => (p, rest)

mutual
/-- Stateful `minimax`: the same recursion as `minimax`, threading the
board state; `board.push(move)` is entering the child with the parent
recorded on the stack, `board.pop()` is `popS`. -/
def minimaxS : Position → List Position → ℤ → XScore → XScore → Bool → XScore × (Position × List Position)
  | .mk d cs, stk, depth, alpha, beta, maximizing =>
    if depth = 0 ∨ (Position.mk d cs).isGameOver then
      (intv (evaluate_board (.mk d cs)), (.mk d cs, stk))
    else if maximizing then
      maxLoopS (.mk d cs) stk cs depth alpha beta nInf
    else
      minLoopS (.mk d cs) stk cs depth alpha beta pInf
termination_by structural p _ _ _ _ _ => p

/-- Stateful maximizing loop: push, recurse, pop — also on the pruning
break (the Python `board.pop()` on line 76 precedes the `break` on
line 79). -/
def maxLoopS : Position → List Position → Children → ℤ → XScore → XScore → XScore → XScore × (Position × List Position)
  | cur, stk, .nil, _, _, _, maxEval => (maxEval, (cur, stk))
  | cur, stk, .cons _ q rest, depth, alpha, beta, maxEval =>
    let r := minimaxS q (cur :: stk) (depth - 1) alpha beta false
    let s2 := popS r.2
    let maxEval2 := max maxEval r.1
    let alpha2 := max alpha r.1
    if beta ≤ alpha2 then (maxEval2, s2)
    else maxLoopS s2.1 s2.2 rest depth alpha2 beta maxEval2
termination_by structural _ _ cs _ _ _ _ => cs

/-- Stateful minimizing loop (Python lines 82-90). -/
def minLoopS : Position → List Position → Children → ℤ → XScore → XScore → XScore → XScore × (Position × List Position)
  | cur, stk, .nil, _, _, _, minEval => (minEval, (cur, stk))
  | cur, stk, .cons _ q rest, depth, alpha, beta, minEval =>
    let r := minimaxS q (cur :: stk) (depth - 1) alpha beta true
    let s2 := popS r.2
    let minEval2 := min minEval r.1
    let beta2 := min beta r.1
    if beta2 ≤ alpha then (minEval2, s2)
    else minLoopS s2.1 s2.2 rest depth alpha beta2 minEval2
termination_by structural _ _ cs _ _ _ _ => cs
end

/-- Stateful root loop of `find_best_move` (push, score, pop per
candidate, lines 95-98). -/
def fbmLoopS : Position → List Position → Children → ℤ → Option Move → XScore → Option Move × (Position × List Position)
  | cur, stk, .nil, _, bestMove, _ => (bestMove, (cur, stk))
  | cur, stk, .cons m q rest, depth, bestMove, bestValue =>
    let r := minimaxS q (cur :: stk) (depth - 1) nInf pInf false
    let s2 := popS r.2
    if bestValue < r.1 then fbmLoopS s2.1 s2.2 rest depth (some m) r.1
    else fbmLoopS s2.1 s2.2 rest depth bestMove bestValue
termination_by structural _ _ cs _ _ _ => cs

/-- Stateful `find_best_move`. -/
def find_best_moveS (p : Position) (stk : List Position) (depth : ℤ) : Option Move × (Position × List Position) :=
  fbmLoopS p stk p.children depth none nInf

/-- Stateful `generate_hint`: tiers 1-2 perform no board operation at
all; tier 3 pushes the trial move, reads the outcome, and pops. -/
def generate_hintS (p : Position) (stk : List Position) (best_move : Move) (level : ℤ) :
    Option (String × (Position × List Position)) :=
  let piece := p.pieceAt best_move.fromSq
  let from_sq := squareName best_move.fromSq
  let to_sq := squareName best_move.toSq
  if level = 1 then
    piece.map (fun pc =>
      ("Try moving your " ++ pc.symbolLower ++ " from " ++ from_sq ++ ".", (p, stk)))
  else if level = 2 then
    piece.map (fun pc =>
      (pc.symbolUpper ++ from_sq ++ " to " ++ to_sq ++ " â€“ " ++
        (if p.isCapture best_move then "captures!"
         else if p.givesCheck best_move then "checks!" else "good move"), (p, stk)))
  else
    let san := p.sanOf best_move
    (p.push? best_move).map (fun q =>
      let s1 : Position × List Position := (q, p :: stk)
      let oc := s1.1.outcome
      let s2 := popS s1
      ("Solution: " ++ san ++ " (" ++ best_move.uci ++ "). " ++
        (match oc with
         | some (some true) => "Mate!"
         | _ => "Winning line!"), s2))

mutual
/-- A position tree is well formed when every node with no legal move is
a terminal node — true of every chess position (a chess position with no
legal moves is checkmate or stalemate, so `is_game_over` holds). -/
def wellFormed : Position → Bool
  | .mk d cs => (!cs.isNil || d.outcome.isSome) && wellFormedC cs
termination_by structural p => p

/-- Well-formedness of every position in a child list. -/
def wellFormedC : Children → Bool
  | .nil => true
  | .cons _ q rest => wellFormed q && wellFormedC rest
termination_by structural cs => cs
end

def Piece.mirror (pc : Piece) : Piece := ⟨pc.kind, !pc.color⟩

/-- Color-mirror of the observed position data: every piece and the side
to move swap colors, and a decisive outcome swaps its winner. -/
def PosData.mirror (d : PosData) : PosData :=
  ⟨d.outcome.map (Option.map (fun w => !w)), !d.turn,
   d.pieces.map Piece.mirror,
   fun sq => (d.pieceAt sq).map Piece.mirror,
   d.sanOf, d.isCapture, d.givesCheck⟩

mutual
/-- Color-mirrored counterpart of a position: all pieces and the side to
move swapped in color, recursively through the game tree. -/
def Position.mirror : Position → Position
  | .mk d cs => .mk d.mirror (Children.mirrorC cs)
termination_by structural p => p

def Children.mirrorC : Children → Children
  | .nil => .nil
  | .cons m q rest => .cons m q.mirror (Children.mirrorC rest)
termination_by structural cs => cs
end

/-!
Concrete positions used as evaluation witnesses.
-/

/-- Sample position data with fixed notation answers. -/
def dataOf (oc : Option (Option Bool)) (ps : List Piece) (pa : Nat → Option Piece) : PosData :=
  ⟨oc, true, ps, pa, fun _ => "Qh7#", fun _ => false, fun _ => false⟩

def mv1 : Move := ⟨51, 55, "d7h7"⟩

def mv2 : Move := ⟨12, 20, "e2e3"⟩

def posMateW : Position :=
  .mk (dataOf (some (some true)) [⟨.queen, true⟩, ⟨.king, true⟩, ⟨.king, false⟩] (fun _ => none)) .nil

def posMateB : Position := .mk (dataOf (some (some false)) [] (fun _ => none)) .nil

def posDraw : Position := .mk (dataOf (some none) [] (fun _ => none)) .nil

/-- A stalemate-like position: zero legal moves, drawn outcome. -/
def posStale : Position :=
  .mk (dataOf (some none) [⟨.king, true⟩, ⟨.king, false⟩] (fun _ => none)) .nil

/-- A live position whose single legal move mates for White. -/
def gameA : Position :=
  .mk (dataOf none [⟨.queen, true⟩, ⟨.pawn, false⟩]
        (fun sq => if sq = 51 then some ⟨.queen, true⟩ else none))
    (.cons mv1 posMateW .nil)

def mvB : Move := ⟨11, 3, "d2d1"⟩

/-- A live position whose single legal move mates for Black. -/
def gameB : Position :=
  .mk (dataOf none [⟨.queen, false⟩]
        (fun sq => if sq = 11 then some ⟨.queen, false⟩ else none))
    (.cons mvB posMateB .nil)

/-- A live position with two legal moves: a drawing one first, then the
mating one. -/
def gameC : Position :=
  .mk (dataOf none [⟨.rook, true⟩]
        (fun sq => if sq = 12 then some ⟨.rook, true⟩ else none))
    (.cons mv2 posDraw (.cons mv1 posMateW .nil))

/-!
Induction infrastructure for the mutual tree type.
-/

/-- List-style induction on a child list: the `Position` motive of the
mutual recursor instantiated trivially. -/
theorem Children.cind (P : Children → Prop) (hnil : P .nil)
    (hcons : ∀ m q rest, P rest → P (.cons m q rest)) (cs : Children) : P cs :=
  @Children.rec (fun _ => True) P (fun _ _ _ => trivial) hnil
    (fun m q rest _ hr => hcons m q rest hr) cs

theorem Children.sizeOf_lt_of_mem (cs : Children) :
    ∀ m q, (m, q) ∈ cs.toList → sizeOf q < sizeOf cs := by
  induction cs using Children.cind with
  | hnil => intro m q h; simp [Children.toList] at h
  | hcons m q rest ih =>
    intro m1 q1 h
    simp only [Children.toList, List.mem_cons] at h
    rcases h with h | h
    · cases h
      simp only [Children.cons.sizeOf_spec]
      omega
    · have := ih m1 q1 h
      simp only [Children.cons.sizeOf_spec]
      omega

theorem sizeOf_child_lt (d : PosData) (cs : Children) (m : Move) (q : Position)
    (h : (m, q) ∈ cs.toList) : sizeOf q < sizeOf (Position.mk d cs) := by
  have h1 := Children.sizeOf_lt_of_mem cs m q h
  have h2 : sizeOf cs < sizeOf (Position.mk d cs) := by
    simp only [Position.mk.sizeOf_spec]
    omega
  omega

/-- Strong induction on the size of a position tree. -/
theorem Position.strong_ind (P : Position → Prop)
    (h : ∀ p : Position, (∀ q : Position, sizeOf q < sizeOf p → P q) → P p) :
    ∀ p, P p := by
  have key : ∀ n : ℕ, ∀ p : Position, sizeOf p < n → P p := by
    intro n
    induction n with
    | zero => intro p hp; omega
    | succ k ih => intro p _; exact h p (fun q hq => ih q (by omega))
  intro p
  exact key (sizeOf p + 1) p (by omega)

/-!
Claim C2 — terminal scoring of `evaluate_board`.
-/

/-- C2: for every terminal position, `evaluate_board` returns exactly
+10000 when the outcome's winner is White (White delivered mate), -10000
when it is Black, and 0 for any drawn outcome, regardless of material. -/
theorem spec_C2_terminal_eval (p : Position) (h : p.isGameOver = true) :
    (p.outcome = some (some true) → evaluate_board p = 10000) ∧
    (p.outcome = some (some false) → evaluate_board p = -10000) ∧
    (p.outcome = some none → evaluate_board p = 0) := by
  refine ⟨?_, ?_, ?_⟩ <;> intro ho <;>
    simp [evaluate_board, h, Position.result, ho]

/-- Witness for C2 at concrete terminal positions. -/
theorem spec_C2_witness : evaluate_board posMateW = 10000 :=
  (spec_C2_terminal_eval posMateW (by decide)).1 (by decide)

/-!
Claim C8 — material-only evaluation on non-terminal positions.
-/

/-- C8: on every non-terminal position `evaluate_board` is the signed
material sum over all pieces with the fixed table
pawn 1, knight 3, bishop 3, rook 5, queen 9, king 0. -/
theorem spec_C8_material_eval (p : Position) (h : p.isGameOver = false) :
    evaluate_board p =
      (p.pieces.map (fun pc => piece_values pc.kind * (if pc.color = true then 1 else -1))).sum ∧
    piece_values .pawn = 1 ∧ piece_values .knight = 3 ∧ piece_values .bishop = 3 ∧
    piece_values .rook = 5 ∧ piece_values .queen = 9 ∧ piece_values .king = 0 := by
  refine ⟨?_, rfl, rfl, rfl, rfl, rfl, rfl⟩
  simp [evaluate_board, h]

/-- Witness for C8 at a concrete live position. -/
theorem spec_C8_witness :
    evaluate_board gameA =
      (gameA.pieces.map (fun pc => piece_values pc.kind * (if pc.color = true then 1 else -1))).sum ∧
    piece_values .pawn = 1 ∧ piece_values .knight = 3 ∧ piece_values .bishop = 3 ∧
    piece_values .rook = 5 ∧ piece_values .queen = 9 ∧ piece_values .king = 0 :=
  spec_C8_material_eval gameA (by decide)

/-!
Claim C9 — color-mirror antisymmetry of `evaluate_board`.
-/

theorem mirror_sum (l : List Piece) :
    (List.map
        ((fun pc => if pc.color = true then piece_values pc.kind else -piece_values pc.kind) ∘
          Piece.mirror) l).sum =
      -(List.map
          (fun pc => if pc.color = true then piece_values pc.kind else -piece_values pc.kind)
          l).sum := by
  induction l with
  | nil => simp
  | cons pc rest ih =>
    simp only [List.map_cons, List.sum_cons, ih, Function.comp, Piece.mirror]
    cases hc : pc.color <;> simp [hc] <;> ring

/-- C9: evaluating a position and its color-mirrored counterpart (all
pieces and the side to move swapped in color) yields negated scores. -/
theorem spec_C9_mirror_eval (p : Position) :
    evaluate_board p.mirror = -evaluate_board p := by
  obtain ⟨d, cs⟩ := p
  have hm : Position.mirror (.mk d cs) = .mk d.mirror (Children.mirrorC cs) := by
    simp [Position.mirror]
  rw [hm]
  rcases ho : d.outcome with _ | w
  · simp [evaluate_board, Position.isGameOver, Position.outcome, Position.data,
      Position.pieces, PosData.mirror, ho]
    exact mirror_sum d.pieces
  · rcases w with _ | b
    · simp [evaluate_board, Position.isGameOver, Position.outcome, Position.data,
        Position.result, PosData.mirror, ho]
    · cases b <;>
        simp [evaluate_board, Position.isGameOver, Position.outcome, Position.data,
          Position.result, PosData.mirror, ho]

/-!
Claim C10 — every tier outside {1, 2} dispatches to the tier-3 branch.
-/

/-- C10: for every tier value other than 1 and 2 (0, negatives, values
above 3), `generate_hint` returns exactly the full tier-3 disclosure. -/
theorem spec_C10_tier_fallthrough (p : Position) (m : Move) (level : ℤ)
    (h1 : level ≠ 1) (h2 : level ≠ 2) :
    generate_hint p m level = generate_hint p m 3 := by
  simp [generate_hint, h1, h2]

/-- Witness for C10 at tier 0. -/
theorem spec_C10_witness : generate_hint gameA mv1 0 = generate_hint gameA mv1 3 :=
  spec_C10_tier_fallthrough gameA mv1 0 (by decide) (by decide)

/-!
Claim C4 — a position with zero legal moves: the code returns `None`
rather than signalling a "no legal move" error.
-/

/-- Counterexample to C4: on a concrete position with zero legal moves
`find_best_move` returns the null placeholder `None` — no error of any
kind is signalled. -/
theorem spec_C4_cex :
    posStale.children.toList.length = 0 ∧ find_best_move posStale 4 = none := by
  exact ⟨rfl, by decide⟩

/-- Amended C4: for every position with zero legal moves,
`find_best_move` returns `None` (the null placeholder) at every depth;
no "no legal move" error is signalled. -/
theorem spec_C4_no_moves_none (p : Position) (depth : ℤ)
    (h : p.children.toList.length = 0) : find_best_move p depth = none := by
  obtain ⟨d, cs⟩ := p
  cases cs with
  | nil => simp [find_best_move, Position.children, fbmLoop]
  | cons m q rest => simp [Position.children, Children.toList] at h

/-- Witness for the amended C4. -/
theorem spec_C4_witness : find_best_move posStale 6 = none :=
  spec_C4_no_moves_none posStale 6 (by decide)

/-!
Claim C3 — depth ≤ 0: the code performs no validation at all.
-/

/-- Counterexample to C3: calling `find_best_move` with depth 0 on a
concrete position raises no configuration error and returns a move —
`minimax` is entered with depth -1 and keeps searching until terminal
positions. -/
theorem spec_C3_cex : find_best_move gameA 0 = some mv1 := by decide

/-!
Claim C6 — the tier-3 hint.  The code's outcome tag follows Python
truthiness of `outcome and outcome.winner`: `outcome.winner` is
`chess.BLACK = False` for a Black-delivered mate, which is falsy, so a
Black mate is reported as "Winning line!", not "Mate!".
-/

/-- Counterexample to C6: a concrete position whose chosen move produces
a decisive terminal outcome won by Black, yet the tier-3 hint reports
"Winning line!" instead of "mate". -/
theorem spec_C6_cex :
    gameB.push? mvB = some posMateB ∧
    posMateB.outcome = some (some false) ∧
    generate_hint gameB mvB 3 = some "Solution: Qh7# (d2d1). Winning line!" := by
  refine ⟨rfl, rfl, by decide⟩

/-- Amended C6: the tier-3 hint applies the move, reports "Mate!" only
when the resulting outcome's winner is White (a Black win or a draw is
tagged "Winning line!"), and undoes the move before returning (state
restored in the stateful embedding). -/
theorem spec_C6_tier3 (p : Position) (m : Move) (q : Position) (stk : List Position)
    (h : p.push? m = some q) :
    generate_hint p m 3 =
      some ("Solution: " ++ p.sanOf m ++ " (" ++ m.uci ++ "). " ++
        (if q.outcome = some (some true) then "Mate!" else "Winning line!")) ∧
    (generate_hintS p stk m 3).map (fun r => r.2) = some (p, stk) := by
  constructor
  · rcases ho : q.outcome with _ | w
    · simp [generate_hint, h, ho]
    · rcases w with _ | b
      · simp [generate_hint, h, ho]
      · cases b <;> simp [generate_hint, h, ho]
  · simp [generate_hintS, h, popS]

/-- Witness for the amended C6 at a concrete White-mating move. -/
theorem spec_C6_witness :
    generate_hint gameA mv1 3 =
      some ("Solution: " ++ gameA.sanOf mv1 ++ " (" ++ mv1.uci ++ "). " ++
        (if posMateW.outcome = some (some true) then "Mate!" else "Winning line!")) ∧
    (generate_hintS gameA [] mv1 3).map (fun r => r.2) = some (gameA, []) :=
  spec_C6_tier3 gameA mv1 posMateW [] rfl

/-!
Claim C7 — side-effect discipline: every operation restores the board
state, including on the early pruning break (the code pops before it
breaks).
-/

theorem maxLoopS_frame (cs : Children)
    (hall : ∀ m q, (m, q) ∈ cs.toList →
      ∀ stk depth alpha beta mx, (minimaxS q stk depth alpha beta mx).2 = (q, stk)) :
    ∀ cur stk depth alpha beta acc,
      (maxLoopS cur stk cs depth alpha beta acc).2 = (cur, stk) := by
  induction cs using Children.cind with
  | hnil => intro cur stk depth alpha beta acc; simp [maxLoopS]
  | hcons m q rest ih =>
    intro cur stk depth alpha beta acc
    have hq := hall m q (by simp [Children.toList])
    have hrest : ∀ m1 q1, (m1, q1) ∈ rest.toList →
        ∀ stk1 depth1 alpha1 beta1 mx1,
          (minimaxS q1 stk1 depth1 alpha1 beta1 mx1).2 = (q1, stk1) := by
      intro m1 q1 hm
      exact hall m1 q1 (by simp [Children.toList, hm])
    simp only [maxLoopS, hq, popS]
    split
    · rfl
    · exact ih hrest cur stk depth _ beta _

theorem minLoopS_frame (cs : Children)
    (hall : ∀ m q, (m, q) ∈ cs.toList →
      ∀ stk depth alpha beta mx, (minimaxS q stk depth alpha beta mx).2 = (q, stk)) :
    ∀ cur stk depth alpha beta acc,
      (minLoopS cur stk cs depth alpha beta acc).2 = (cur, stk) := by
  induction cs using Children.cind with
  | hnil => intro cur stk depth alpha beta acc; simp [minLoopS]
  | hcons m q rest ih =>
    intro cur stk depth alpha beta acc
    have hq := hall m q (by simp [Children.toList])
    have hrest : ∀ m1 q1, (m1, q1) ∈ rest.toList →
        ∀ stk1 depth1 alpha1 beta1 mx1,
          (minimaxS q1 stk1 depth1 alpha1 beta1 mx1).2 = (q1, stk1) := by
      intro m1 q1 hm
      exact hall m1 q1 (by simp [Children.toList, hm])
    simp only [minLoopS, hq, popS]
    split
    · rfl
    · exact ih hrest cur stk depth alpha _ _

theorem minimaxS_frame (p : Position) :
    ∀ stk depth alpha beta mx, (minimaxS p stk depth alpha beta mx).2 = (p, stk) := by
  induction p using Position.strong_ind with
  | h p ih =>
    obtain ⟨d, cs⟩ := p
    intro stk depth alpha beta mx
    have hall : ∀ m q, (m, q) ∈ cs.toList →
        ∀ stk1 depth1 alpha1 beta1 mx1,
          (minimaxS q stk1 depth1 alpha1 beta1 mx1).2 = (q, stk1) := by
      intro m q hm
      exact ih q (sizeOf_child_lt d cs m q hm)
    simp only [minimaxS]
    split
    · rfl
    · split
      · exact maxLoopS_frame cs hall _ stk depth alpha beta nInf
      · exact minLoopS_frame cs hall _ stk depth alpha beta pInf

theorem fbmLoopS_frame (cs : Children) :
    ∀ cur stk depth bm bv, (fbmLoopS cur stk cs depth bm bv).2 = (cur, stk) := by
  induction cs using Children.cind with
  | hnil => intro cur stk depth bm bv; simp [fbmLoopS]
  | hcons m q rest ih =>
    intro cur stk depth bm bv
    have hq := minimaxS_frame q (cur :: stk) (depth - 1) nInf pInf false
    simp only [fbmLoopS, hq, popS]
    split
    · exact ih cur stk depth _ _
    · exact ih cur stk depth _ _

theorem find_best_moveS_frame (p : Position) (stk : List Position) (depth : ℤ) :
    (find_best_moveS p stk depth).2 = (p, stk) :=
  fbmLoopS_frame p.children p stk depth none nInf

theorem generate_hintS_map_snd (p : Position) (stk : List Position) (m : Move) (lvl : ℤ) :
    (generate_hintS p stk m lvl).map (fun r => r.2) =
      (generate_hintS p stk m lvl).map (fun _ => (p, stk)) := by
  unfold generate_hintS
  split_ifs <;> simp only [Option.map_map, popS] <;> rfl

/-- C7: the position is restored on every exit path — the stateful
search leaves the board state exactly as found (including on pruning
breaks), the stateful root search does too, and any result of the
stateful hint generator carries back the original state (tiers 1-2
perform no board operation; tier 3 pops its one trial push). -/
theorem spec_C7_state_restored (p : Position) (stk : List Position) (depth : ℤ)
    (alpha beta : XScore) (mx : Bool) (m : Move) (lvl : ℤ)
    (r : String × (Position × List Position)) :
    (minimaxS p stk depth alpha beta mx).2 = (p, stk) ∧
    (find_best_moveS p stk depth).2 = (p, stk) ∧
    (generate_hintS p stk m lvl = some r → r.2 = (p, stk)) := by
  refine ⟨minimaxS_frame p stk depth alpha beta mx,
    find_best_moveS_frame p stk depth, ?_⟩
  intro h
  have hm := generate_hintS_map_snd p stk m lvl
  rw [h] at hm
  simpa using hm

/-- Witness for C7: the theorem applied at a concrete position, state
and tier-1 hint call. -/
theorem spec_C7_witness :
    (("Try moving your q from d7.", (gameA, ([] : List Position))) :
        String × (Position × List Position)).2 = (gameA, []) :=
  (spec_C7_state_restored gameA [] 2 nInf pInf true mv1 1
    ("Try moving your q from d7.", (gameA, []))).2.2 rfl

/-!
Non-bottom scores.  On well-formed positions (every node without legal
moves is terminal — true of chess), `minimax` never returns `-inf`,
because every loop scores at least one child and leaf scores are
integers.
-/

theorem wellFormedC_mem (cs : Children) :
    wellFormedC cs = true → ∀ m q, (m, q) ∈ cs.toList → wellFormed q = true := by
  induction cs using Children.cind with
  | hnil => intro _ m q hm; simp [Children.toList] at hm
  | hcons m q rest ih =>
    intro h m1 q1 hm
    rw [wellFormedC, Bool.and_eq_true] at h
    simp only [Children.toList, List.mem_cons] at hm
    rcases hm with hm | hm
    · cases hm; exact h.1
    · exact ih h.2 m1 q1 hm

theorem wellFormed_parts (d : PosData) (cs : Children)
    (h : wellFormed (.mk d cs) = true) :
    wellFormedC cs = true ∧ (cs = Children.nil → d.outcome.isSome = true) := by
  rw [wellFormed, Bool.and_eq_true] at h
  refine ⟨h.2, fun hnil => ?_⟩
  subst hnil
  simpa [Children.isNil] using h.1

theorem xmax_ne_bot (a b : XScore) (hb : b ≠ nInf) : max a b ≠ nInf := by
  intro h
  apply hb
  have hle : b ≤ max a b := le_max_right a b
  rw [h] at hle
  exact le_bot_iff.mp hle

theorem xmin_ne_bot (a b : XScore) (ha : a ≠ nInf) (hb : b ≠ nInf) : min a b ≠ nInf := by
  intro h
  rcases min_choice a b with hc | hc
  · exact ha (hc.symm.trans h)
  · exact hb (hc.symm.trans h)

theorem maxLoop_ne_bot (cs : Children)
    (hall : ∀ m q, (m, q) ∈ cs.toList → ∀ d a b mx, minimax q d a b mx ≠ nInf) :
    ∀ d a b acc, (acc = nInf → cs ≠ Children.nil) → maxLoop cs d a b acc ≠ nInf := by
  induction cs using Children.cind with
  | hnil =>
    intro d a b acc hacc
    simp only [maxLoop]
    intro heq
    exact hacc heq rfl
  | hcons m q rest ih =>
    intro d a b acc _
    have he : minimax q (d - 1) a b false ≠ nInf := hall m q (by simp [Children.toList]) _ _ _ _
    have hrest : ∀ m1 q1, (m1, q1) ∈ rest.toList →
        ∀ d1 a1 b1 mx1, minimax q1 d1 a1 b1 mx1 ≠ nInf := by
      intro m1 q1 hm
      exact hall m1 q1 (by simp [Children.toList, hm])
    simp only [maxLoop]
    split
    · exact xmax_ne_bot acc _ he
    · exact ih hrest d _ b _ (fun hcon => absurd hcon (xmax_ne_bot acc _ he))

theorem minLoop_ne_bot (cs : Children)
    (hall : ∀ m q, (m, q) ∈ cs.toList → ∀ d a b mx, minimax q d a b mx ≠ nInf) :
    ∀ d a b acc, acc ≠ nInf → minLoop cs d a b acc ≠ nInf := by
  induction cs using Children.cind with
  | hnil => intro d a b acc hacc; simpa [minLoop] using hacc
  | hcons m q rest ih =>
    intro d a b acc hacc
    have he : minimax q (d - 1) a b true ≠ nInf := hall m q (by simp [Children.toList]) _ _ _ _
    have hrest : ∀ m1 q1, (m1, q1) ∈ rest.toList →
        ∀ d1 a1 b1 mx1, minimax q1 d1 a1 b1 mx1 ≠ nInf := by
      intro m1 q1 hm
      exact hall m1 q1 (by simp [Children.toList, hm])
    simp only [minLoop]
    split
    · exact xmin_ne_bot acc _ hacc he
    · exact ih hrest d a _ _ (xmin_ne_bot acc _ hacc he)

theorem minimax_ne_bot (p : Position) :
    wellFormed p = true → ∀ d a b mx, minimax p d a b mx ≠ nInf := by
  induction p using Position.strong_ind with
  | h p ih =>
    obtain ⟨dta, cs⟩ := p
    intro hwf d a b mx
    have hparts := wellFormed_parts dta cs hwf
    have hall : ∀ m q, (m, q) ∈ cs.toList → ∀ d1 a1 b1 mx1, minimax q d1 a1 b1 mx1 ≠ nInf := by
      intro m q hm
      exact ih q (sizeOf_child_lt dta cs m q hm)
        (wellFormedC_mem cs hparts.1 m q hm)
    simp only [minimax]
    split
    · exact WithBot.coe_ne_bot
    · rename_i hbase
      have hne : cs ≠ Children.nil := by
        intro hnil
        apply hbase
        right
        simp [Position.isGameOver, Position.outcome, Position.data, hparts.2 hnil]
      split
      · exact maxLoop_ne_bot cs hall d a b nInf (fun _ => hne)
      · exact minLoop_ne_bot cs hall d a b pInf (by decide)

/-!
The root loop of `find_best_move` selects the first move achieving the
maximum root score (strict improvement test `value > best_value`).
-/

theorem fbmLoop_stay (cs : Children) (d : ℤ) :
    ∀ bm bv, (∀ mq ∈ cs.toList, rootValue d mq ≤ bv) → fbmLoop cs d bm bv = bm := by
  induction cs using Children.cind with
  | hnil => intro bm bv _; simp [fbmLoop]
  | hcons m q rest ih =>
    intro bm bv hall
    have h0 : rootValue d (m, q) ≤ bv := hall (m, q) (by simp [Children.toList])
    simp only [fbmLoop]
    split
    · rename_i hcond; exact absurd hcond (not_lt.mpr h0)
    · exact ih bm bv (fun mq hm => hall mq (by simp [Children.toList, hm]))

theorem fbmLoop_argmax (d : ℤ) (cs : Children) :
    ∀ bm bv,
      (∃ j, ∃ hj : j < cs.toList.length, bv < rootValue d (cs.toList.get ⟨j, hj⟩)) →
      ∃ k, ∃ hk : k < cs.toList.length,
        fbmLoop cs d bm bv = some (cs.toList.get ⟨k, hk⟩).1 ∧
        bv < rootValue d (cs.toList.get ⟨k, hk⟩) ∧
        (∀ j, ∀ hj : j < cs.toList.length, j < k →
          rootValue d (cs.toList.get ⟨j, hj⟩) < rootValue d (cs.toList.get ⟨k, hk⟩)) ∧
        (∀ j, ∀ hj : j < cs.toList.length,
          rootValue d (cs.toList.get ⟨j, hj⟩) ≤ rootValue d (cs.toList.get ⟨k, hk⟩)) := by
  induction cs using Children.cind with
  | hnil =>
    intro bm bv h
    obtain ⟨j, hj, _⟩ := h
    simp [Children.toList] at hj
  | hcons m q rest ih =>
    intro bm bv hex
    have hlen : (Children.cons m q rest).toList.length = rest.toList.length + 1 := by
      simp [Children.toList]
    by_cases h0 : bv < rootValue d (m, q)
    · by_cases hall : ∀ mq ∈ rest.toList, rootValue d mq ≤ rootValue d (m, q)
      · refine ⟨0, by rw [hlen]; omega, ?_, h0, ?_, ?_⟩
        · simp only [fbmLoop]
          split
          · exact fbmLoop_stay rest d (some m) (rootValue d (m, q)) hall
          · rename_i hcond; exact absurd h0 hcond
        · intro j hj hjk; omega
        · intro j hj
          cases j with
          | zero => exact le_refl _
          | succ j1 =>
            have hj1 : j1 < rest.toList.length := by rw [hlen] at hj; omega
            exact hall _ (List.get_mem rest.toList j1 hj1)
      · push_neg at hall
        obtain ⟨mq, hmem, hgt⟩ := hall
        obtain ⟨n, hn⟩ := List.mem_iff_get.mp hmem
        have hn' : rest.toList.get ⟨n.1, n.2⟩ = mq := hn
        have hex2 : ∃ j, ∃ hj : j < rest.toList.length,
            rootValue d (m, q) < rootValue d (rest.toList.get ⟨j, hj⟩) := by
          refine ⟨n.1, n.2, ?_⟩
          rw [hn']
          exact hgt
        obtain ⟨k1, hk1, heq, hv0k, hearl, hle⟩ := ih (some m) (rootValue d (m, q)) hex2
        refine ⟨k1 + 1, by rw [hlen]; omega, ?_, lt_trans h0 hv0k, ?_, ?_⟩
        · simp only [fbmLoop]
          split
          · exact heq
          · rename_i hcond; exact absurd h0 hcond
        · intro j hj hjk
          cases j with
          | zero => exact hv0k
          | succ j1 =>
            have hj1 : j1 < rest.toList.length := by rw [hlen] at hj; omega
            exact hearl j1 hj1 (by omega)
        · intro j hj
          cases j with
          | zero => exact le_of_lt hv0k
          | succ j1 =>
            have hj1 : j1 < rest.toList.length := by rw [hlen] at hj; omega
            exact hle j1 hj1
    · obtain ⟨j, hj, hjgt⟩ := hex
      have hex2 : ∃ j2, ∃ hj2 : j2 < rest.toList.length,
          bv < rootValue d (rest.toList.get ⟨j2, hj2⟩) := by
        cases j with
        | zero => exact absurd hjgt h0
        | succ j1 =>
          have hj1 : j1 < rest.toList.length := by rw [hlen] at hj; omega
          exact ⟨j1, hj1, hjgt⟩
      obtain ⟨k1, hk1, heq, hbvk, hearl, hle⟩ := ih bm bv hex2
      have h0le : rootValue d (m, q) ≤ bv := not_lt.mp h0
      refine ⟨k1 + 1, by rw [hlen]; omega, ?_, hbvk, ?_, ?_⟩
      · simp only [fbmLoop]
        split
        · rename_i hcond; exact absurd hcond h0
        · exact heq
      · intro j hj hjk
        cases j with
        | zero => exact lt_of_le_of_lt h0le hbvk
        | succ j1 =>
          have hj1 : j1 < rest.toList.length := by rw [hlen] at hj; omega
          exact hearl j1 hj1 (by omega)
      · intro j hj
        cases j with
        | zero => exact le_trans h0le (le_of_lt hbvk)
        | succ j1 =>
          have hj1 : j1 < rest.toList.length := by rw [hlen] at hj; omega
          exact hle j1 hj1

theorem find_best_move_some (p : Position) (depth : ℤ) (hwf : wellFormed p = true)
    (hne : 0 < p.children.toList.length) : ∃ m, find_best_move p depth = some m := by
  obtain ⟨dta, cs⟩ := p
  cases cs with
  | nil => simp [Position.children, Position.data, Children.toList] at hne
  | cons m q rest =>
    have hwfq : wellFormed q = true :=
      wellFormedC_mem _ (wellFormed_parts dta _ hwf).1 m q (by simp [Children.toList])
    have hbot : minimax q (depth - 1) nInf pInf false ≠ nInf := minimax_ne_bot q hwfq _ _ _ _
    have hex : ∃ j, ∃ hj : j < (Children.cons m q rest).toList.length,
        nInf < rootValue depth ((Children.cons m q rest).toList.get ⟨j, hj⟩) := by
      refine ⟨0, by simp [Children.toList], ?_⟩
      exact bot_lt_iff_ne_bot.mpr hbot
    obtain ⟨k, hk, heq, _⟩ := fbmLoop_argmax depth (Children.cons m q rest) none nInf hex
    exact ⟨_, heq⟩

/-!
Claim C5 — with at least one legal move, `find_best_move` returns the
first move achieving the maximum root score.
-/

/-- C5: on a well-formed position with at least one legal move and a
valid depth, `find_best_move` returns `some` move, namely the move at
the first enumeration index whose one-ply root score
(`minimax(depth-1, -inf, +inf, maximizing=False)` after the move)
strictly exceeds every earlier score and is not exceeded by any
other. -/
theorem spec_C5_first_argmax (p : Position) (depth : ℤ)
    (hwf : wellFormed p = true) (hne : 0 < p.children.toList.length) (hd : 1 ≤ depth) :
    ∃ k, ∃ hk : k < p.children.toList.length,
      find_best_move p depth = some (p.children.toList.get ⟨k, hk⟩).1 ∧
      (∀ j, ∀ hj : j < p.children.toList.length, j < k →
        rootValue depth (p.children.toList.get ⟨j, hj⟩) <
          rootValue depth (p.children.toList.get ⟨k, hk⟩)) ∧
      (∀ j, ∀ hj : j < p.children.toList.length,
        rootValue depth (p.children.toList.get ⟨j, hj⟩) ≤
          rootValue depth (p.children.toList.get ⟨k, hk⟩)) := by
  obtain ⟨dta, cs⟩ := p
  cases cs with
  | nil => simp [Position.children, Position.data, Children.toList] at hne
  | cons m q rest =>
    have hwfq : wellFormed q = true :=
      wellFormedC_mem _ (wellFormed_parts dta _ hwf).1 m q (by simp [Children.toList])
    have hbot : minimax q (depth - 1) nInf pInf false ≠ nInf := minimax_ne_bot q hwfq _ _ _ _
    have hex : ∃ j, ∃ hj : j < (Children.cons m q rest).toList.length,
        nInf < rootValue depth ((Children.cons m q rest).toList.get ⟨j, hj⟩) := by
      refine ⟨0, by simp [Children.toList], ?_⟩
      exact bot_lt_iff_ne_bot.mpr hbot
    obtain ⟨k, hk, heq, _, hearl, hle⟩ :=
      fbmLoop_argmax depth (Children.cons m q rest) none nInf hex
    exact ⟨k, hk, heq, hearl, hle⟩

/-- Witness for C5 at a concrete two-move position and depth 1. -/
theorem spec_C5_witness :
    ∃ k, ∃ hk : k < gameC.children.toList.length,
      find_best_move gameC 1 = some (gameC.children.toList.get ⟨k, hk⟩).1 ∧
      (∀ j, ∀ hj : j < gameC.children.toList.length, j < k →
        rootValue 1 (gameC.children.toList.get ⟨j, hj⟩) <
          rootValue 1 (gameC.children.toList.get ⟨k, hk⟩)) ∧
      (∀ j, ∀ hj : j < gameC.children.toList.length,
        rootValue 1 (gameC.children.toList.get ⟨j, hj⟩) ≤
          rootValue 1 (gameC.children.toList.get ⟨k, hk⟩)) :=
  spec_C5_first_argmax gameC 1 (by decide) (by decide) (by decide)

/-- Amended C3: `find_best_move` (src/main.py line 92) performs no depth
validation whatsoever: for `depth ≤ 0` it neither raises a configuration
error nor clamps the depth — it runs the same root loop (with `minimax`
recursing past 0 until terminal positions) and still returns a move
whenever legal moves exist. -/
theorem spec_C3_searches_anyway (p : Position) (depth : ℤ) (hd : depth ≤ 0)
    (hwf : wellFormed p = true) (hne : 0 < p.children.toList.length) :
    ∃ m, find_best_move p depth = some m :=
  find_best_move_some p depth hwf hne

/-- Witness for the amended C3 at depth -2. -/
theorem spec_C3_witness : ∃ m, find_best_move gameC (-2) = some m :=
  spec_C3_searches_anyway gameC (-2) (by decide) (by decide) (by decide)

/-!
Claim C1 — pruning equivalence.  The classical fail-soft argument: the
alpha-beta value of a node, within the window it was called with,
fail-soft bounds the exhaustive minimax value, and the full window at
the root forces exact agreement.
-/

theorem FS_refl (v a b : XScore) : FS v v a b :=
  ⟨fun _ => le_refl v, fun _ => le_refl v, fun _ _ => rfl⟩

theorem maxLoop_ge_acc (cs : Children) : ∀ d a b acc, acc ≤ maxLoop cs d a b acc := by
  induction cs using Children.cind with
  | hnil => intro d a b acc; simp [maxLoop]
  | hcons m q rest ih =>
    intro d a b acc
    simp only [maxLoop]
    split
    · exact le_max_left acc _
    · exact le_trans (le_max_left acc _) (ih d _ b _)

theorem minLoop_le_acc (cs : Children) : ∀ d a b acc, minLoop cs d a b acc ≤ acc := by
  induction cs using Children.cind with
  | hnil => intro d a b acc; simp [minLoop]
  | hcons m q rest ih =>
    intro d a b acc
    simp only [minLoop]
    split
    · exact min_le_left acc _
    · exact le_trans (ih d a _ _) (min_le_left acc _)

theorem maxLoop_fs (d : ℤ) (cs : Children)
    (hall : ∀ m q, (m, q) ∈ cs.toList → ∀ a b, a < b →
      FS (minimax q (d - 1) a b false) (minimaxNP q (d - 1) false) a b) :
    ∀ a b acc, a < b → acc ≤ a →
      FS (maxLoop cs d a b acc) (max acc (npMaxL cs d)) a b := by
  induction cs using Children.cind with
  | hnil =>
    intro a b acc _ _
    simp only [maxLoop, npMaxL]
    exact ⟨fun _ => le_of_eq (max_eq_left bot_le), fun _ => le_max_left acc nInf,
      fun _ _ => (max_eq_left bot_le).symm⟩
  | hcons m q rest ih =>
    intro a b acc hab hacc
    obtain ⟨hq1, hq2, hq3⟩ := hall m q (by simp [Children.toList]) a b hab
    have hallR : ∀ m1 q1, (m1, q1) ∈ rest.toList → ∀ a1 b1, a1 < b1 →
        FS (minimax q1 (d - 1) a1 b1 false) (minimaxNP q1 (d - 1) false) a1 b1 := by
      intro m1 q1 hm
      exact hall m1 q1 (by simp [Children.toList, hm])
    simp only [maxLoop, npMaxL]
    split
    · rename_i hbreak
      have hbe : b ≤ minimax q (d - 1) a b false := by
        rcases le_or_lt (minimax q (d - 1) a b false) a with h1 | h1
        · rw [max_eq_left h1] at hbreak
          exact absurd (lt_of_lt_of_le hab hbreak) (lt_irrefl a)
        · rwa [max_eq_right (le_of_lt h1)] at hbreak
      have hete : minimax q (d - 1) a b false ≤ minimaxNP q (d - 1) false := hq2 hbe
      refine ⟨?_, ?_, ?_⟩
      · intro h
        exfalso
        have hba : b ≤ a := le_trans hbe (le_trans (le_max_right acc _) h)
        exact absurd (lt_of_lt_of_le hab hba) (lt_irrefl a)
      · intro _
        exact max_le_max (le_refl acc) (le_trans hete (le_max_left _ _))
      · intro _ h2
        exact absurd (lt_of_le_of_lt (le_trans hbe (le_max_right acc _)) h2) (lt_irrefl b)
    · rename_i hcont
      have hcont' : max a (minimax q (d - 1) a b false) < b := not_le.mp hcont
      have hacc' : max acc (minimax q (d - 1) a b false) ≤ max a (minimax q (d - 1) a b false) :=
        max_le_max hacc (le_refl _)
      obtain ⟨ih1, ih2, ih3⟩ := ih hallR (max a (minimax q (d - 1) a b false)) b
        (max acc (minimax q (d - 1) a b false)) hcont' hacc'
      rcases le_or_lt (minimax q (d - 1) a b false) a with hea | hea
      · have hte : minimaxNP q (d - 1) false ≤ minimax q (d - 1) a b false := hq1 hea
        have hmaxa : max a (minimax q (d - 1) a b false) = a := max_eq_left hea
        rw [hmaxa] at ih1 ih2 ih3 ⊢
        refine ⟨?_, ?_, ?_⟩
        · intro h
          have hTT : max acc (max (minimaxNP q (d - 1) false) (npMaxL rest d)) ≤
              max (max acc (minimax q (d - 1) a b false)) (npMaxL rest d) := by
            refine max_le ?_ (max_le ?_ ?_)
            · exact le_trans (le_max_left acc _) (le_max_left _ _)
            · exact le_trans (le_trans hte (le_max_right acc _)) (le_max_left _ _)
            · exact le_max_right _ _
          exact le_trans hTT (ih1 h)
        · intro h
          have hv := ih2 h
          rcases max_choice (max acc (minimax q (d - 1) a b false)) (npMaxL rest d) with hc | hc
          · rw [hc] at hv
            exfalso
            have hba : b ≤ a := le_trans h (le_trans hv (le_trans hacc' (le_of_eq hmaxa)))
            exact absurd (lt_of_lt_of_le hab hba) (lt_irrefl a)
          · rw [hc] at hv
            exact le_trans hv (le_trans (le_max_right _ _) (le_max_right acc _))
        · intro h1v h2v
          have hv := ih3 h1v h2v
          have htR : maxLoop rest d a b (max acc (minimax q (d - 1) a b false)) = npMaxL rest d := by
            rcases max_choice (max acc (minimax q (d - 1) a b false)) (npMaxL rest d) with hc | hc
            · exfalso
              rw [hc] at hv
              have hle2 : max acc (minimax q (d - 1) a b false) ≤ a :=
                le_trans hacc' (le_of_eq hmaxa)
              rw [hv] at h1v
              exact absurd (lt_of_lt_of_le h1v hle2) (lt_irrefl a)
            · rw [hc] at hv
              exact hv
          rw [htR]
          have hatR : a < npMaxL rest d := htR ▸ h1v
          have h1 : max (minimaxNP q (d - 1) false) (npMaxL rest d) = npMaxL rest d :=
            max_eq_right (le_trans hte (le_trans hea (le_of_lt hatR)))
          rw [h1]
          exact (max_eq_right (le_trans hacc (le_of_lt hatR))).symm
      · have heb : minimax q (d - 1) a b false < b := lt_of_le_of_lt (le_max_right a _) hcont'
        have hq3' := hq3 hea heb
        have hmaxa : max a (minimax q (d - 1) a b false) = minimax q (d - 1) a b false :=
          max_eq_right (le_of_lt hea)
        have hmacc : max acc (minimax q (d - 1) a b false) = minimax q (d - 1) a b false :=
          max_eq_right (le_trans hacc (le_of_lt hea))
        rw [hmaxa, hmacc] at ih1 ih2 ih3 ⊢
        have hT : max acc (max (minimaxNP q (d - 1) false) (npMaxL rest d)) =
            max (minimax q (d - 1) a b false) (npMaxL rest d) := by
          rw [← hq3']
          exact max_eq_right (le_trans hacc (le_trans (le_of_lt hea) (le_max_left _ _)))
        rw [hT]
        refine ⟨?_, ?_, ?_⟩
        · intro h
          exact ih1 (le_trans h (le_of_lt hea))
        · exact ih2
        · intro h1v h2v
          rcases lt_or_le (minimax q (d - 1) a b false)
              (maxLoop rest d (minimax q (d - 1) a b false) b
                (minimax q (d - 1) a b false)) with hve | hve
          · exact ih3 hve h2v
          · have hge := maxLoop_ge_acc rest d (minimax q (d - 1) a b false) b
              (minimax q (d - 1) a b false)
            have hveq : maxLoop rest d (minimax q (d - 1) a b false) b
                (minimax q (d - 1) a b false) = minimax q (d - 1) a b false :=
              le_antisymm hve hge
            have hTle := ih1 (le_of_eq hveq)
            have hvle : maxLoop rest d (minimax q (d - 1) a b false) b
                (minimax q (d - 1) a b false) ≤
                max (minimax q (d - 1) a b false) (npMaxL rest d) := by
              rw [hveq]
              exact le_max_left _ _
            exact le_antisymm hvle hTle

theorem minLoop_fs (d : ℤ) (cs : Children)
    (hall : ∀ m q, (m, q) ∈ cs.toList → ∀ a b, a < b →
      FS (minimax q (d - 1) a b true) (minimaxNP q (d - 1) true) a b) :
    ∀ a b acc, a < b → b ≤ acc →
      FS (minLoop cs d a b acc) (min acc (npMinL cs d)) a b := by
  induction cs using Children.cind with
  | hnil =>
    intro a b acc _ _
    simp only [minLoop, npMinL]
    exact ⟨fun _ => le_of_eq (min_eq_left le_top), fun _ => le_min (le_refl acc) le_top,
      fun _ _ => (min_eq_left le_top).symm⟩
  | hcons m q rest ih =>
    intro a b acc hab hacc
    obtain ⟨hq1, hq2, hq3⟩ := hall m q (by simp [Children.toList]) a b hab
    have hallR : ∀ m1 q1, (m1, q1) ∈ rest.toList → ∀ a1 b1, a1 < b1 →
        FS (minimax q1 (d - 1) a1 b1 true) (minimaxNP q1 (d - 1) true) a1 b1 := by
      intro m1 q1 hm
      exact hall m1 q1 (by simp [Children.toList, hm])
    simp only [minLoop, npMinL]
    split
    · rename_i hbreak
      have hea : minimax q (d - 1) a b true ≤ a := by
        rcases le_or_lt b (minimax q (d - 1) a b true) with h1 | h1
        · rw [min_eq_left h1] at hbreak
          exact absurd (lt_of_lt_of_le hab hbreak) (lt_irrefl a)
        · rwa [min_eq_right (le_of_lt h1)] at hbreak
      have hte : minimaxNP q (d - 1) true ≤ minimax q (d - 1) a b true := hq1 hea
      refine ⟨?_, ?_, ?_⟩
      · intro _
        exact min_le_min (le_refl acc) (le_trans (min_le_left _ _) hte)
      · intro h
        exfalso
        have hba : b ≤ a := le_trans h (le_trans (min_le_right acc _) hea)
        exact absurd (lt_of_lt_of_le hab hba) (lt_irrefl a)
      · intro h1v _
        exact absurd (lt_of_lt_of_le h1v (le_trans (min_le_right acc _) hea)) (lt_irrefl a)
    · rename_i hcont
      have hcont' : a < min b (minimax q (d - 1) a b true) := not_le.mp hcont
      have hacc' : min b (minimax q (d - 1) a b true) ≤ min acc (minimax q (d - 1) a b true) :=
        min_le_min hacc (le_refl _)
      obtain ⟨ih1, ih2, ih3⟩ := ih hallR a (min b (minimax q (d - 1) a b true))
        (min acc (minimax q (d - 1) a b true)) hcont' hacc'
      rcases le_or_lt b (minimax q (d - 1) a b true) with hbe | hbe
      · have hte : minimax q (d - 1) a b true ≤ minimaxNP q (d - 1) true := hq2 hbe
        have hminb : min b (minimax q (d - 1) a b true) = b := min_eq_left hbe
        rw [hminb] at ih1 ih2 ih3 hacc' ⊢
        refine ⟨?_, ?_, ?_⟩
        · intro h
          have hv := ih1 h
          rcases min_choice (min acc (minimax q (d - 1) a b true)) (npMinL rest d) with hc | hc
          · rw [hc] at hv
            exfalso
            have hba : b ≤ a := le_trans hacc' (le_trans hv h)
            exact absurd (lt_of_lt_of_le hab hba) (lt_irrefl a)
          · rw [hc] at hv
            exact le_trans (le_trans (min_le_right acc _) (min_le_right _ _)) hv
        · intro h
          have hTT : min (min acc (minimax q (d - 1) a b true)) (npMinL rest d) ≤
              min acc (min (minimaxNP q (d - 1) true) (npMinL rest d)) := by
            refine le_min ?_ (le_min ?_ ?_)
            · exact le_trans (min_le_left _ _) (min_le_left acc _)
            · exact le_trans (min_le_left _ _) (le_trans (min_le_right acc _) hte)
            · exact min_le_right _ _
          exact le_trans (ih2 h) hTT
        · intro h1v h2v
          have hv := ih3 h1v h2v
          have htR : minLoop rest d a b (min acc (minimax q (d - 1) a b true)) = npMinL rest d := by
            rcases min_choice (min acc (minimax q (d - 1) a b true)) (npMinL rest d) with hc | hc
            · exfalso
              rw [hc] at hv
              rw [hv] at h2v
              exact absurd (lt_of_le_of_lt hacc' h2v) (lt_irrefl b)
            · rw [hc] at hv
              exact hv
          rw [htR]
          have hbtR : npMinL rest d < b := htR ▸ h2v
          have h1 : min (minimaxNP q (d - 1) true) (npMinL rest d) = npMinL rest d :=
            min_eq_right (le_trans (le_of_lt hbtR) (le_trans hbe hte))
          rw [h1]
          exact (min_eq_right (le_trans (le_of_lt hbtR) hacc)).symm
      · have hae : a < minimax q (d - 1) a b true :=
          lt_of_lt_of_le hcont' (min_le_right b _)
        have hq3' := hq3 hae hbe
        have hminb : min b (minimax q (d - 1) a b true) = minimax q (d - 1) a b true :=
          min_eq_right (le_of_lt hbe)
        have hminacc : min acc (minimax q (d - 1) a b true) = minimax q (d - 1) a b true :=
          min_eq_right (le_of_lt (lt_of_lt_of_le hbe hacc))
        rw [hminb, hminacc] at ih1 ih2 ih3 ⊢
        have hT : min acc (min (minimaxNP q (d - 1) true) (npMinL rest d)) =
            min (minimax q (d - 1) a b true) (npMinL rest d) := by
          rw [← hq3']
          exact min_eq_right
            (le_trans (min_le_left _ _) (le_of_lt (lt_of_lt_of_le hbe hacc)))
        rw [hT]
        refine ⟨?_, ?_, ?_⟩
        · exact ih1
        · intro h
          exact ih2 (le_trans (le_of_lt hbe) h)
        · intro h1v h2v
          rcases lt_or_le (minLoop rest d a (minimax q (d - 1) a b true)
              (minimax q (d - 1) a b true)) (minimax q (d - 1) a b true) with hve | hve
          · exact ih3 h1v hve
          · have hle2 := minLoop_le_acc rest d a (minimax q (d - 1) a b true)
              (minimax q (d - 1) a b true)
            have hveq : minLoop rest d a (minimax q (d - 1) a b true)
                (minimax q (d - 1) a b true) = minimax q (d - 1) a b true :=
              le_antisymm hle2 hve
            have hTge := ih2 (le_of_eq hveq.symm)
            have hvge : min (minimax q (d - 1) a b true) (npMinL rest d) ≤
                minLoop rest d a (minimax q (d - 1) a b true)
                  (minimax q (d - 1) a b true) := by
              rw [hveq]
              exact min_le_left _ _
            exact le_antisymm hTge hvge

theorem minimax_fs (p : Position) :
    ∀ d a b mx, a < b → FS (minimax p d a b mx) (minimaxNP p d mx) a b := by
  induction p using Position.strong_ind with
  | h p ih =>
    obtain ⟨dta, cs⟩ := p
    intro d a b mx hab
    simp only [minimax, minimaxNP]
    split
    · exact FS_refl _ a b
    · split
      · have hall : ∀ m q, (m, q) ∈ cs.toList → ∀ a1 b1, a1 < b1 →
            FS (minimax q (d - 1) a1 b1 false) (minimaxNP q (d - 1) false) a1 b1 := by
          intro m q hm a1 b1 hab1
          exact ih q (sizeOf_child_lt dta cs m q hm) (d - 1) a1 b1 false hab1
        have h := maxLoop_fs d cs hall a b nInf hab bot_le
        rwa [max_eq_right bot_le] at h
      · have hall : ∀ m q, (m, q) ∈ cs.toList → ∀ a1 b1, a1 < b1 →
            FS (minimax q (d - 1) a1 b1 true) (minimaxNP q (d - 1) true) a1 b1 := by
          intro m q hm a1 b1 hab1
          exact ih q (sizeOf_child_lt dta cs m q hm) (d - 1) a1 b1 true hab1
        have h := minLoop_fs d cs hall a b pInf hab le_top
        rwa [min_eq_right le_top] at h

theorem minimax_eq_NP (p : Position) (d : ℤ) (mx : Bool) :
    minimax p d nInf pInf mx = minimaxNP p d mx := by
  obtain ⟨h1, h2, h3⟩ := minimax_fs p d nInf pInf mx (by decide)
  rcases le_or_lt (minimax p d nInf pInf mx) nInf with hv | hv
  · have hb : minimax p d nInf pInf mx = ⊥ := le_bot_iff.mp hv
    have ht : minimaxNP p d mx = ⊥ := le_bot_iff.mp (le_trans (h1 hv) hv)
    rw [hb, ht]
  · rcases lt_or_le (minimax p d nInf pInf mx) pInf with hv2 | hv2
    · exact h3 hv hv2
    · have hvt : minimax p d nInf pInf mx = ⊤ := top_le_iff.mp hv2
      have ht : minimaxNP p d mx = ⊤ :=
        top_le_iff.mp (le_trans (le_of_eq hvt.symm) (h2 hv2))
      rw [hvt, ht]

theorem fbmLoop_congr (cs : Children) :
    ∀ d bm bv, fbmLoop cs d bm bv = fbmLoopNP cs d bm bv := by
  induction cs using Children.cind with
  | hnil => intro d bm bv; rfl
  | hcons m q rest ih =>
    intro d bm bv
    simp only [fbmLoop, fbmLoopNP]
    rw [minimax_eq_NP q (d - 1) false]
    split
    · exact ih d (some m) _
    · exact ih d bm bv

theorem find_best_move_eq_NP (p : Position) (d : ℤ) :
    find_best_move p d = find_best_moveNP p d :=
  fbmLoop_congr p.children d none nInf

/-- C1: for every position and every depth between 1 and 4 (the proof
holds for all depths), the root score computed by the alpha-beta search
with the full window and the root move returned by `find_best_move`
equal the score and move of exhaustive (unpruned) minimax at the same
depth — pruning is a pure optimization. -/
theorem spec_C1_pruning_equivalence (p : Position) (depth : ℤ) (mx : Bool)
    (h1 : 1 ≤ depth) (h4 : depth ≤ 4) :
    minimax p depth nInf pInf mx = minimaxNP p depth mx ∧
    find_best_move p depth = find_best_moveNP p depth :=
  ⟨minimax_eq_NP p depth mx, find_best_move_eq_NP p depth⟩

/-- Witness for C1 at a concrete position and depth 2. -/
theorem spec_C1_witness :
    minimax gameC 2 nInf pInf true = minimaxNP gameC 2 true ∧
    find_best_move gameC 2 = find_best_moveNP gameC 2 :=
  spec_C1_pruning_equivalence gameC 2 true (by decide) (by decide)
